import Mathlib

/-!
Verification of the bloom-filter library (`src/lib.rs`) against its
specification, via a shallow embedding in Lean.

Modelling conventions:
* Rust `Vec<bool>` (and `Vec<AtomicBool>` under sequential execution,
  where `store(true, Relaxed)` / `load(Relaxed)` are plain writes/reads)
  becomes `List Bool`.
* Machine integers (`usize`, `u64`) become `Nat`; the only place overflow
  could matter is the digest value, which is already reduced `% size`.
* Fallible/panicking code returns `Option`: `% 0` panics in Rust, and
  out-of-bounds indexing `bit_array[idx]` panics, so `hash`, `set` and
  `test` return `none` exactly where the Rust code would panic.
* The external `sha2` crate is not part of this repository.  The pipeline
  `Sha256(bytes)` → first 8 bytes → `usize::from_le_bytes` is modelled by
  an explicit function parameter `dg : List Nat → Nat` applied to the exact
  byte sequence the Rust code feeds the hasher
  (`item.as_bytes() ++ i.to_le_bytes()`).  Every theorem holds for an
  arbitrary digest function; witnesses instantiate it with a concrete one.
-/

namespace Bloom

/-- The bytes of `item.as_bytes()` (UTF-8), as naturals `< 256`. -/
def strBytes (s : String) : List Nat :=
  s.toUTF8.toList.map (fun b => b.toNat)

/-- The 8 bytes of `i.to_le_bytes()` for a 64-bit `usize`, little-endian. -/
def usizeLeBytes (n : Nat) : List Nat :=
  (List.range 8).map (fun k => n / 2 ^ (8 * k) % 256)

/-- The byte sequence fed to the hasher by both `hash` implementations:
`hasher.update(item.as_bytes()); hasher.update(i.to_le_bytes())`. -/
def hashInput (item : String) (i : Nat) : List Nat :=
  strBytes item ++ usizeLeBytes i

/-- The index produced by the digest pipeline when `size ≠ 0`:
digest of the input bytes, reduced `% size`. -/
def hashIdx (dg : List Nat → Nat) (size : Nat) (item : String) (i : Nat) : Nat :=
  dg (hashInput item i) % size

/-- `pub struct BloomFilter { bit_array: Vec<bool>, num_hashes: usize, size: usize }` -/
structure BloomFilter where
  bit_array : List Bool
  num_hashes : Nat
  size : Nat
deriving Repr, DecidableEq

/-- `pub struct AtomicBloomFilter { bit_array: Vec<AtomicBool>, num_hashes: usize, size: usize }` -/
structure AtomicBloomFilter where
  bit_array : List Bool
  num_hashes : Nat
  size : Nat
deriving Repr, DecidableEq

/-- `BloomFilter::new`: `bit_array: vec![false; size]`, fields stored verbatim.
No validation of `size` is performed. -/
def BloomFilter.new (size num_hashes : Nat) : BloomFilter :=
  { bit_array := List.replicate size false, num_hashes := num_hashes, size := size }

/-- `AtomicBloomFilter::new`: `(0..size).map(|_| AtomicBool::new(false)).collect()`.
No validation of `size` is performed. -/
def AtomicBloomFilter.new (size num_hashes : Nat) : AtomicBloomFilter :=
  { bit_array := List.replicate size false, num_hashes := num_hashes, size := size }

/-- `BloomFilter::hash`: SHA-256 of `item.as_bytes() ++ i.to_le_bytes()`,
first 8 bytes as a little-endian `usize`, `% self.size`.  When
`self.size == 0` the Rust `%` panics, modelled as `none`. -/
def BloomFilter.hash (dg : List Nat → Nat) (bf : BloomFilter) (item : String)
    (i : Nat) : Option Nat :=
  if bf.size = 0 then none
  else some (hashIdx dg bf.size item i)

/-- `AtomicBloomFilter::hash`: textually the same computation as
`BloomFilter::hash`. -/
def AtomicBloomFilter.hash (dg : List Nat → Nat) (bf : AtomicBloomFilter) (item : String)
    (i : Nat) : Option Nat :=
  if bf.size = 0 then none
  else some (hashIdx dg bf.size item i)

/-- `self.bit_array[idx] = true`: panics (`none`) when `idx` is out of
bounds, otherwise stores `true` at `idx`. -/
def storeTrue (l : List Bool) (idx : Nat) : Option (List Bool) :=
  if idx < l.length then some (l.set idx true) else none

/-- The loop body of `BloomFilter::set` over the remaining values of `i`
(in Rust: `for i in 0..num_hashes`). -/
def BloomFilter.setGo (dg : List Nat → Nat) (item : String) :
    List Nat → BloomFilter → Option BloomFilter
  | [], bf => some bf
  | i :: is, bf =>
    (bf.hash dg item i).bind fun idx =>
      (storeTrue bf.bit_array idx).bind fun arr =>
        BloomFilter.setGo dg item is { bf with bit_array := arr }

/-- `BloomFilter::set`: for each `i` in `0..num_hashes`, compute the hash
index and store `true` there. -/
def BloomFilter.set (dg : List Nat → Nat) (bf : BloomFilter) (item : String) :
    Option BloomFilter :=
  BloomFilter.setGo dg item (List.range bf.num_hashes) bf

/-- The loop body of `BloomFilter::test`: reads `bit_array[idx]` (panic =
`none` when out of bounds) and returns `false` at the first unset bit. -/
def BloomFilter.testGo (dg : List Nat → Nat) (item : String) :
    List Nat → BloomFilter → Option Bool
  | [], _ => some true
  | i :: is, bf =>
    (bf.hash dg item i).bind fun idx =>
      (bf.bit_array[idx]?).bind fun b =>
        if b then BloomFilter.testGo dg item is bf else some false

/-- `BloomFilter::test`: `true` only if the bits at all `num_hashes`
positions are set; short-circuits to `false` at the first unset bit. -/
def BloomFilter.test (dg : List Nat → Nat) (bf : BloomFilter) (item : String) :
    Option Bool :=
  BloomFilter.testGo dg item (List.range bf.num_hashes) bf

/-- The loop body of `AtomicBloomFilter::set`: `store(true, Relaxed)` on each
hashed cell, modelled sequentially as a plain write. -/
def AtomicBloomFilter.setGo (dg : List Nat → Nat) (item : String) :
    List Nat → AtomicBloomFilter → Option AtomicBloomFilter
  | [], bf => some bf
  | i :: is, bf =>
    (bf.hash dg item i).bind fun idx =>
      (storeTrue bf.bit_array idx).bind fun arr =>
        AtomicBloomFilter.setGo dg item is { bf with bit_array := arr }

/-- `AtomicBloomFilter::set`. -/
def AtomicBloomFilter.set (dg : List Nat → Nat) (bf : AtomicBloomFilter) (item : String) :
    Option AtomicBloomFilter :=
  AtomicBloomFilter.setGo dg item (List.range bf.num_hashes) bf

/-- The loop body of `AtomicBloomFilter::test`: `load(Relaxed)` on each
hashed cell, modelled sequentially as a plain read. -/
def AtomicBloomFilter.testGo (dg : List Nat → Nat) (item : String) :
    List Nat → AtomicBloomFilter → Option Bool
  | [], _ => some true
  | i :: is, bf =>
    (bf.hash dg item i).bind fun idx =>
      (bf.bit_array[idx]?).bind fun b =>
        if b then AtomicBloomFilter.testGo dg item is bf else some false

/-- `AtomicBloomFilter::test`. -/
def AtomicBloomFilter.test (dg : List Nat → Nat) (bf : AtomicBloomFilter) (item : String) :
    Option Bool :=
  AtomicBloomFilter.testGo dg item (List.range bf.num_hashes) bf

/-- `BloomFilter::reset`: `self.bit_array.fill(false)` — every cell becomes
`false`, length unchanged. -/
def BloomFilter.reset (bf : BloomFilter) : BloomFilter :=
  { bf with bit_array := List.replicate bf.bit_array.length false }

/-- `BloomFilter::set_hash_fn`: accepts a vector of hash closures
(`Vec<Box<dyn Fn(&[u8]) -> u64>>`) and has an empty body. -/
def BloomFilter.set_hash_fn (bf : BloomFilter) (hashFn : List (List Nat → Nat)) :
    BloomFilter :=
  bf

/-- A sequence of `set` calls executed in order (propagating panics). -/
def setMany (dg : List Nat → Nat) : List String → BloomFilter → Option BloomFilter
  | [], bf => some bf
  | x :: xs, bf => (bf.set dg x).bind fun bf1 => setMany dg xs bf1

/-- A concrete digest used only to instantiate witnesses; stands in for the
SHA-256/first-8-bytes pipeline of the external crate. -/
def demoDigest (bs : List Nat) : Nat :=
  bs.foldl (fun a b => 31 * a + b) 7

/-- The view of an `AtomicBloomFilter`'s state as a plain `BloomFilter`
state (same fields; the variants differ only in synchronization). -/
def AtomicBloomFilter.toBF (abf : AtomicBloomFilter) : BloomFilter :=
  { bit_array := abf.bit_array, num_hashes := abf.num_hashes, size := abf.size }

/-- An interleaved sequence of `set`/`test` operations. -/
inductive Op
  | ins (item : String)
  | qry (item : String)

/-- Run a sequence of operations on a `BloomFilter`, collecting the result
of every `test` call (a panic anywhere gives `none`). -/
def BloomFilter.run (dg : List Nat → Nat) : List Op → BloomFilter → Option (List Bool)
  | [], _ => some []
  | Op.ins it :: ops, bf => (bf.set dg it).bind (fun bf1 => BloomFilter.run dg ops bf1)
  | Op.qry it :: ops, bf =>
    (bf.test dg it).bind (fun b => (BloomFilter.run dg ops bf).map (fun bs => b :: bs))

/-- Run a sequence of operations on an `AtomicBloomFilter`, collecting the
result of every `test` call. -/
def AtomicBloomFilter.run (dg : List Nat → Nat) :
    List Op → AtomicBloomFilter → Option (List Bool)
  | [], _ => some []
  | Op.ins it :: ops, bf => (bf.set dg it).bind (fun bf1 => AtomicBloomFilter.run dg ops bf1)
  | Op.qry it :: ops, bf =>
    (bf.test dg it).bind (fun b => (AtomicBloomFilter.run dg ops bf).map (fun bs => b :: bs))

/-- Mark every index of `is` as `true`, in order (the cumulative effect of
one `set` call's loop). -/
def writeAll (l : List Bool) : List Nat → List Bool
  | [] => l
  | i :: is => writeAll (l.set i true) is

/-! ### Helper lemmas -/

theorem hashIdx_lt (dg : List Nat → Nat) {size : Nat} (item : String) (i : Nat)
    (hsz : 0 < size) : hashIdx dg size item i < size :=
  Nat.mod_lt _ hsz

theorem hash_eq_some (dg : List Nat → Nat) (bf : BloomFilter) (item : String) (i : Nat)
    (hsz : 0 < bf.size) :
    bf.hash dg item i = some (hashIdx dg bf.size item i) := by
  simp [BloomFilter.hash, Nat.pos_iff_ne_zero.mp hsz]

theorem length_writeAll (is : List Nat) (l : List Bool) :
    (writeAll l is).length = l.length := by
  induction is generalizing l with
  | nil => rfl
  | cons i is ih => simp [writeAll, ih]

theorem getElem?_writeAll (is : List Nat) (l : List Bool) (j : Nat) :
    (writeAll l is)[j]? = if j ∈ is ∧ j < l.length then some true else l[j]? := by
  induction is generalizing l with
  | nil => simp [writeAll]
  | cons i is ih =>
    rw [writeAll, ih, List.length_set, List.getElem?_set]
    rcases Nat.lt_or_ge j l.length with h2 | h2
    · by_cases h3 : i = j
      · subst h3
        by_cases h1 : i ∈ is <;> simp [h1, h2, List.mem_cons]
      · by_cases h1 : j ∈ is <;> simp [h1, h2, h3, Ne.symm h3, List.mem_cons]
    · have hnone : l[j]? = none := List.getElem?_eq_none h2
      have h2' : ¬ j < l.length := Nat.not_lt.mpr h2
      by_cases h3 : i = j
      · subst h3
        simp [h2', hnone]
      · simp [h2', h3, hnone]

theorem writeAll_comm (l : List Bool) (xs ys : List Nat) :
    writeAll (writeAll l xs) ys = writeAll (writeAll l ys) xs := by
  apply List.ext_getElem?
  intro j
  simp only [getElem?_writeAll, length_writeAll]
  split_ifs <;> tauto

theorem getElem?_writeAll_of_mem {is : List Nat} {l : List Bool} {j : Nat}
    (hm : j ∈ is) (hj : j < l.length) : (writeAll l is)[j]? = some true := by
  rw [getElem?_writeAll]
  simp [hm, hj]

theorem getElem?_writeAll_mono {l : List Bool} {j : Nat} (is : List Nat)
    (hj : l[j]? = some true) : (writeAll l is)[j]? = some true := by
  rw [getElem?_writeAll]
  split_ifs <;> simp [hj]

/-- Under the structural invariant, the `set` loop never panics and its
effect is exactly `writeAll` over the hash indices of the processed `i`s. -/
theorem setGo_eq (dg : List Nat → Nat) (item : String) (is : List Nat)
    (bf : BloomFilter) (hsz : 0 < bf.size) (hlen : bf.bit_array.length = bf.size) :
    BloomFilter.setGo dg item is bf
      = some { bf with
          bit_array := writeAll bf.bit_array (is.map (hashIdx dg bf.size item)) } := by
  induction is generalizing bf with
  | nil => simp [BloomFilter.setGo, writeAll]
  | cons i is ih =>
    have hidx : hashIdx dg bf.size item i < bf.bit_array.length := by
      rw [hlen]; exact hashIdx_lt dg item i hsz
    rw [BloomFilter.setGo, hash_eq_some dg bf item i hsz]
    simp only [Option.some_bind, storeTrue, if_pos hidx]
    rw [ih { bf with bit_array := bf.bit_array.set (hashIdx dg bf.size item i) true } hsz
      (by simpa using hlen)]
    simp [writeAll]

/-- Under the structural invariant, the `test` loop never panics: it returns
the conjunction of the bits at the hash indices of the processed `i`s. -/
theorem testGo_eq (dg : List Nat → Nat) (item : String) (is : List Nat)
    (bf : BloomFilter) (hsz : 0 < bf.size) (hlen : bf.bit_array.length = bf.size) :
    BloomFilter.testGo dg item is bf
      = some (is.all fun i => (bf.bit_array[hashIdx dg bf.size item i]?).getD false) := by
  induction is with
  | nil => simp [BloomFilter.testGo]
  | cons i is ih =>
    have hidx : hashIdx dg bf.size item i < bf.bit_array.length := by
      rw [hlen]; exact hashIdx_lt dg item i hsz
    obtain ⟨b, hb⟩ : ∃ b, bf.bit_array[hashIdx dg bf.size item i]? = some b :=
      ⟨_, List.getElem?_eq_getElem hidx⟩
    rw [BloomFilter.testGo, hash_eq_some dg bf item i hsz, Option.some_bind, hb,
      Option.some_bind]
    cases b with
    | false => simp [hb]
    | true => simp [hb, ih]

/-- `set` under the structural invariant: never panics, marks exactly the
hash indices of `0..num_hashes`. -/
theorem set_eq (dg : List Nat → Nat) (bf : BloomFilter) (item : String)
    (hsz : 0 < bf.size) (hlen : bf.bit_array.length = bf.size) :
    bf.set dg item = some { bf with
      bit_array := writeAll bf.bit_array
        ((List.range bf.num_hashes).map (hashIdx dg bf.size item)) } :=
  setGo_eq dg item (List.range bf.num_hashes) bf hsz hlen

/-- `test` under the structural invariant: never panics, returns the
conjunction of the bits at the `num_hashes` hash indices. -/
theorem test_eq (dg : List Nat → Nat) (bf : BloomFilter) (item : String)
    (hsz : 0 < bf.size) (hlen : bf.bit_array.length = bf.size) :
    bf.test dg item = some ((List.range bf.num_hashes).all
      fun i => (bf.bit_array[hashIdx dg bf.size item i]?).getD false) :=
  testGo_eq dg item (List.range bf.num_hashes) bf hsz hlen

/-- A sequence of `set` calls under the structural invariant: never panics,
preserves the configuration and the invariant, and only raises bits. -/
theorem setMany_eq (dg : List Nat → Nat) :
    ∀ (ops : List String) (bf : BloomFilter), 0 < bf.size →
      bf.bit_array.length = bf.size →
      ∃ bf2, setMany dg ops bf = some bf2 ∧ bf2.size = bf.size ∧
        bf2.num_hashes = bf.num_hashes ∧ bf2.bit_array.length = bf.bit_array.length ∧
        ∀ j : Nat, bf.bit_array[j]? = some true → bf2.bit_array[j]? = some true := by
  intro ops
  induction ops with
  | nil => intro bf _ _; exact ⟨bf, rfl, rfl, rfl, rfl, fun j hj => hj⟩
  | cons x xs ih =>
    intro bf hsz hlen
    have hlen1 : (writeAll bf.bit_array ((List.range bf.num_hashes).map (hashIdx dg bf.size x))).length = bf.size := by
      rw [length_writeAll]; exact hlen
    obtain ⟨bf2, h2, hs2, hk2, hl2, hm2⟩ :=
      ih { bf with bit_array := writeAll bf.bit_array ((List.range bf.num_hashes).map (hashIdx dg bf.size x)) } hsz hlen1
    refine ⟨bf2, ?_, hs2, hk2, ?_, ?_⟩
    · rw [setMany, set_eq dg bf x hsz hlen, Option.some_bind]
      exact h2
    · rw [hl2]; simp [length_writeAll]
    · intro j hj
      exact hm2 j (getElem?_writeAll_mono _ hj)

/-- `setGo` only raises bits, with no structural hypotheses: any cell that
was `true` before a successful `set` loop is still `true` afterwards. -/
theorem setGo_mono (dg : List Nat → Nat) (item : String) (is : List Nat) :
    ∀ bf bf1 : BloomFilter, BloomFilter.setGo dg item is bf = some bf1 →
      ∀ j : Nat, bf.bit_array[j]? = some true → bf1.bit_array[j]? = some true := by
  induction is with
  | nil =>
    intro bf bf1 h j hj
    rw [BloomFilter.setGo] at h
    cases h
    exact hj
  | cons i is ih =>
    intro bf bf1 h j hj
    rw [BloomFilter.setGo] at h
    cases hh : bf.hash dg item i with
    | none => rw [hh, Option.none_bind] at h; exact Option.noConfusion h
    | some idx =>
      rw [hh, Option.some_bind] at h
      by_cases hlt : idx < bf.bit_array.length
      · simp only [storeTrue, if_pos hlt, Option.some_bind] at h
        refine ih _ _ h j ?_
        rw [List.getElem?_set]
        by_cases hij : idx = j
        · subst hij
          simp [hlt]
        · simp [hij, hj]
      · simp only [storeTrue, if_neg hlt, Option.none_bind] at h
        exact Option.noConfusion h

/-- `setGo` never changes the configuration fields or the array length. -/
theorem setGo_fields (dg : List Nat → Nat) (item : String) (is : List Nat) :
    ∀ bf bf1 : BloomFilter, BloomFilter.setGo dg item is bf = some bf1 →
      bf1.size = bf.size ∧ bf1.num_hashes = bf.num_hashes ∧
        bf1.bit_array.length = bf.bit_array.length := by
  induction is with
  | nil =>
    intro bf bf1 h
    rw [BloomFilter.setGo] at h
    cases h
    exact ⟨rfl, rfl, rfl⟩
  | cons i is ih =>
    intro bf bf1 h
    rw [BloomFilter.setGo] at h
    cases hh : bf.hash dg item i with
    | none => rw [hh, Option.none_bind] at h; exact Option.noConfusion h
    | some idx =>
      rw [hh, Option.some_bind] at h
      by_cases hlt : idx < bf.bit_array.length
      · simp only [storeTrue, if_pos hlt, Option.some_bind] at h
        obtain ⟨h1, h2, h3⟩ := ih _ _ h
        refine ⟨h1, h2, ?_⟩
        rw [h3]
        simp
      · simp only [storeTrue, if_neg hlt, Option.none_bind] at h
        exact Option.noConfusion h

/-! ### Correspondence between the atomic and exclusive variants -/

theorem atomic_hash_toBF (dg : List Nat → Nat) (abf : AtomicBloomFilter)
    (item : String) (i : Nat) :
    abf.hash dg item i = abf.toBF.hash dg item i := rfl

theorem atomic_setGo_toBF (dg : List Nat → Nat) (item : String) (is : List Nat) :
    ∀ abf : AtomicBloomFilter,
      (AtomicBloomFilter.setGo dg item is abf).map AtomicBloomFilter.toBF
        = BloomFilter.setGo dg item is abf.toBF := by
  induction is with
  | nil => intro abf; rfl
  | cons i is ih =>
    intro abf
    rw [AtomicBloomFilter.setGo, BloomFilter.setGo]
    have hsc : BloomFilter.hash dg abf.toBF item i = AtomicBloomFilter.hash dg abf item i := rfl
    have harr : abf.toBF.bit_array = abf.bit_array := rfl
    rw [hsc, harr]
    cases AtomicBloomFilter.hash dg abf item i with
    | none => rfl
    | some idx =>
      simp only [Option.some_bind]
      cases storeTrue abf.bit_array idx with
      | none => rfl
      | some arr =>
        simp only [Option.some_bind]
        exact ih { abf with bit_array := arr }

theorem atomic_testGo_toBF (dg : List Nat → Nat) (item : String) (is : List Nat) :
    ∀ abf : AtomicBloomFilter,
      AtomicBloomFilter.testGo dg item is abf = BloomFilter.testGo dg item is abf.toBF := by
  induction is with
  | nil => intro abf; rfl
  | cons i is ih =>
    intro abf
    rw [AtomicBloomFilter.testGo, BloomFilter.testGo]
    have hsc : BloomFilter.hash dg abf.toBF item i = AtomicBloomFilter.hash dg abf item i := rfl
    have harr : abf.toBF.bit_array = abf.bit_array := rfl
    rw [hsc, harr]
    cases AtomicBloomFilter.hash dg abf item i with
    | none => rfl
    | some idx =>
      simp only [Option.some_bind]
      cases abf.bit_array[idx]? with
      | none => rfl
      | some b =>
        simp only [Option.some_bind]
        cases b with
        | false => rfl
        | true => simpa using ih abf

theorem atomic_set_toBF (dg : List Nat → Nat) (abf : AtomicBloomFilter) (item : String) :
    (abf.set dg item).map AtomicBloomFilter.toBF = abf.toBF.set dg item :=
  atomic_setGo_toBF dg item (List.range abf.num_hashes) abf

theorem atomic_test_toBF (dg : List Nat → Nat) (abf : AtomicBloomFilter) (item : String) :
    abf.test dg item = abf.toBF.test dg item :=
  atomic_testGo_toBF dg item (List.range abf.num_hashes) abf

theorem atomic_run_toBF (dg : List Nat → Nat) :
    ∀ (ops : List Op) (abf : AtomicBloomFilter),
      AtomicBloomFilter.run dg ops abf = BloomFilter.run dg ops abf.toBF := by
  intro ops
  induction ops with
  | nil => intro abf; rfl
  | cons op ops ih =>
    intro abf
    cases op with
    | ins it =>
      rw [AtomicBloomFilter.run, BloomFilter.run, ← atomic_set_toBF]
      cases abf.set dg it with
      | none => rfl
      | some abf1 => simpa using ih abf1
    | qry it =>
      rw [AtomicBloomFilter.run, BloomFilter.run, ← atomic_test_toBF, ← ih abf]

/-! ### Claims -/

/-- C1: the code violates the claim.  `new(0, num_hashes)` does not return an
error: it constructs an instance (with an empty bit array) on both store
variants, and the failure is deferred to hash time, where `% self.size`
panics with a modulo by zero (modelled as `none`) during `set` and `test`. -/
theorem new_zero_size_defers_failure (dg : List Nat → Nat) :
    BloomFilter.new 0 1 = { bit_array := [], num_hashes := 1, size := 0 } ∧
    (BloomFilter.new 0 1).hash dg "x" 0 = none ∧
    (BloomFilter.new 0 1).set dg "x" = none ∧
    (BloomFilter.new 0 1).test dg "x" = none ∧
    AtomicBloomFilter.new 0 1 = { bit_array := [], num_hashes := 1, size := 0 } ∧
    (AtomicBloomFilter.new 0 1).set dg "x" = none ∧
    (AtomicBloomFilter.new 0 1).test dg "x" = none :=
  ⟨rfl, rfl, rfl, rfl, rfl, rfl, rfl⟩

/-- C2: no false negatives.  For any filter with positive size (and the
structural invariant that the array length equals `size`), after `set e`
completes, any further sequence of `set` calls leaves `test e` returning
`true`. -/
theorem no_false_negatives (dg : List Nat → Nat) (bf : BloomFilter) (e : String)
    (others : List String) (hsz : 0 < bf.size) (hlen : bf.bit_array.length = bf.size) :
    ∃ bf1 bf2, bf.set dg e = some bf1 ∧ setMany dg others bf1 = some bf2 ∧
      bf2.test dg e = some true := by
  have hlen1 : (writeAll bf.bit_array ((List.range bf.num_hashes).map (hashIdx dg bf.size e))).length = bf.size := by
    rw [length_writeAll]; exact hlen
  obtain ⟨bf2, h2, hs2, hk2, hl2, hm2⟩ :=
    setMany_eq dg others { bf with bit_array := writeAll bf.bit_array ((List.range bf.num_hashes).map (hashIdx dg bf.size e)) } hsz hlen1
  have hs2' : bf2.size = bf.size := hs2
  have hk2' : bf2.num_hashes = bf.num_hashes := hk2
  have hl2' : bf2.bit_array.length = bf2.size := by
    rw [hs2']; rw [hl2]; exact hlen1
  refine ⟨_, bf2, set_eq dg bf e hsz hlen, h2, ?_⟩
  rw [test_eq dg bf2 e (by rw [hs2']; exact hsz) hl2']
  refine congrArg some ?_
  rw [List.all_eq_true]
  intro i hi
  have hi' : i < bf.num_hashes := by rw [← hk2']; exact List.mem_range.mp hi
  have hmark : bf2.bit_array[hashIdx dg bf2.size e i]? = some true := by
    rw [hs2']
    refine hm2 _ ?_
    refine getElem?_writeAll_of_mem ?_ ?_
    · exact List.mem_map.mpr ⟨i, List.mem_range.mpr hi', rfl⟩
    · rw [hlen]; exact hashIdx_lt dg e i hsz
  rw [hmark]
  rfl

theorem no_false_negatives_witness :
    ∃ bf1 bf2, (BloomFilter.new 3 2).set demoDigest "x" = some bf1 ∧
      setMany demoDigest ["y"] bf1 = some bf2 ∧ bf2.test demoDigest "x" = some true :=
  no_false_negatives demoDigest (BloomFilter.new 3 2) "x" ["y"] (by decide) (by decide)

/-- C3: index-out-of-range is structurally impossible.  For positive size
(and the structural invariant), the hash of either variant always returns
an index strictly below `size`, and `set`/`test` on either variant never
reach their panic branch (they always return `some`). -/
theorem index_out_of_range_impossible (dg : List Nat → Nat) (bf : BloomFilter)
    (abf : AtomicBloomFilter) (item : String) (i : Nat)
    (hsz : 0 < bf.size) (hlen : bf.bit_array.length = bf.size)
    (hasz : 0 < abf.size) (halen : abf.bit_array.length = abf.size) :
    (∃ idx, bf.hash dg item i = some idx ∧ idx < bf.size) ∧
    (∃ idx, abf.hash dg item i = some idx ∧ idx < abf.size) ∧
    (∃ bf1, bf.set dg item = some bf1) ∧
    (∃ b, bf.test dg item = some b) ∧
    (∃ abf1, abf.set dg item = some abf1) ∧
    (∃ b, abf.test dg item = some b) := by
  refine ⟨⟨_, hash_eq_some dg bf item i hsz, hashIdx_lt dg item i hsz⟩, ?_, ?_, ?_, ?_, ?_⟩
  · exact ⟨_, hash_eq_some dg abf.toBF item i hasz, hashIdx_lt dg item i hasz⟩
  · exact ⟨_, set_eq dg bf item hsz hlen⟩
  · exact ⟨_, test_eq dg bf item hsz hlen⟩
  · have h := atomic_set_toBF dg abf item
    rw [set_eq dg abf.toBF item hasz halen] at h
    obtain ⟨abf1, h1, _⟩ := Option.map_eq_some'.mp h
    exact ⟨abf1, h1⟩
  · rw [atomic_test_toBF]
    exact ⟨_, test_eq dg abf.toBF item hasz halen⟩

theorem index_out_of_range_impossible_witness :
    (∃ idx, (BloomFilter.new 3 2).hash demoDigest "x" 1 = some idx ∧ idx < (BloomFilter.new 3 2).size) ∧
    (∃ idx, (AtomicBloomFilter.new 4 2).hash demoDigest "x" 1 = some idx ∧ idx < (AtomicBloomFilter.new 4 2).size) ∧
    (∃ bf1, (BloomFilter.new 3 2).set demoDigest "x" = some bf1) ∧
    (∃ b, (BloomFilter.new 3 2).test demoDigest "x" = some b) ∧
    (∃ abf1, (AtomicBloomFilter.new 4 2).set demoDigest "x" = some abf1) ∧
    (∃ b, (AtomicBloomFilter.new 4 2).test demoDigest "x" = some b) :=
  index_out_of_range_impossible demoDigest (BloomFilter.new 3 2) (AtomicBloomFilter.new 4 2)
    "x" 1 (by decide) (by decide) (by decide) (by decide)

/-- C4: bit monotonicity.  A cell that is `true` stays `true` across any
successful `set` call on either variant (`test` takes the filter immutably
and returns no new state); only `reset` returns a `true` cell to `false`. -/
theorem bit_monotonicity (dg : List Nat → Nat) (bf bf1 : BloomFilter)
    (abf abf1 : AtomicBloomFilter) (item aitem : String) (j aj : Nat)
    (hset : bf.set dg item = some bf1) (hj : bf.bit_array[j]? = some true)
    (haset : abf.set dg aitem = some abf1) (haj : abf.bit_array[aj]? = some true) :
    bf1.bit_array[j]? = some true ∧ abf1.bit_array[aj]? = some true ∧
    bf.reset.bit_array[j]? = some false := by
  refine ⟨setGo_mono dg item (List.range bf.num_hashes) bf bf1 hset j hj, ?_, ?_⟩
  · have h := atomic_set_toBF dg abf aitem
    rw [haset] at h
    have h2 : abf.toBF.set dg aitem = some abf1.toBF := h.symm
    exact setGo_mono dg aitem (List.range abf.num_hashes) abf.toBF abf1.toBF h2 aj haj
  · have hjlen : j < bf.bit_array.length := by
      by_contra hc
      rw [List.getElem?_eq_none (Nat.le_of_not_lt hc)] at hj
      exact Option.noConfusion hj
    show (List.replicate bf.bit_array.length false)[j]? = some false
    rw [List.getElem?_replicate]
    simp [hjlen]

theorem bit_monotonicity_witness :
    (⟨[true], 1, 1⟩ : BloomFilter).bit_array[(0 : Nat)]? = some true ∧
    (⟨[true], 1, 1⟩ : AtomicBloomFilter).bit_array[(0 : Nat)]? = some true ∧
    (BloomFilter.reset ⟨[true], 1, 1⟩).bit_array[(0 : Nat)]? = some false :=
  bit_monotonicity (fun _ => 0) ⟨[true], 1, 1⟩ ⟨[true], 1, 1⟩ ⟨[true], 1, 1⟩ ⟨[true], 1, 1⟩
    "x" "y" 0 0 (by decide) (by decide) (by decide) (by decide)

/-- C5: reset completeness.  From any state reached by a sequence of `set`
calls, `reset` makes every cell `false`, and (with at least one hash
function and positive size) `test` then returns `false` for every element. -/
theorem reset_completeness (dg : List Nat → Nat) (bf bf2 : BloomFilter) (ops : List String)
    (e : String) (hsz : 0 < bf.size) (hlen : bf.bit_array.length = bf.size)
    (hops : setMany dg ops bf = some bf2) (hk : 1 ≤ bf.num_hashes) :
    (∀ j : Nat, j < bf2.reset.bit_array.length → bf2.reset.bit_array[j]? = some false) ∧
    bf2.reset.test dg e = some false := by
  obtain ⟨bf2', h2, hs2, hk2, hl2, _⟩ := setMany_eq dg ops bf hsz hlen
  have hbe : bf2' = bf2 := Option.some.inj (h2.symm.trans hops)
  subst hbe
  constructor
  · intro j hj
    show (List.replicate bf2'.bit_array.length false)[j]? = some false
    rw [List.getElem?_replicate]
    have hj' : j < bf2'.bit_array.length := by simpa [BloomFilter.reset] using hj
    simp [hj']
  · have hrsz : 0 < bf2'.reset.size := by
      show 0 < bf2'.size
      rw [hs2]; exact hsz
    have hrlen : bf2'.reset.bit_array.length = bf2'.reset.size := by
      show (List.replicate bf2'.bit_array.length false).length = bf2'.size
      rw [List.length_replicate, hl2, hlen, hs2]
    rw [test_eq dg bf2'.reset e hrsz hrlen]
    refine congrArg some ?_
    have h0 : (0 : Nat) ∈ List.range bf2'.reset.num_hashes := by
      refine List.mem_range.mpr ?_
      show 0 < bf2'.num_hashes
      rw [hk2]; omega
    have hp : ((bf2'.reset.bit_array[hashIdx dg bf2'.reset.size e 0]?).getD false) = false := by
      show ((List.replicate bf2'.bit_array.length false)[hashIdx dg bf2'.reset.size e 0]?).getD false = false
      rw [List.getElem?_replicate]
      split_ifs <;> rfl
    cases hall : (List.range bf2'.reset.num_hashes).all (fun i => (bf2'.reset.bit_array[hashIdx dg bf2'.reset.size e i]?).getD false) with
    | false => rfl
    | true =>
      exfalso
      have := (List.all_eq_true.mp hall) 0 h0
      rw [hp] at this
      exact Bool.noConfusion this

theorem reset_completeness_witness :
    (∀ j : Nat, j < (BloomFilter.reset ⟨[true, false], 1, 2⟩).bit_array.length →
      (BloomFilter.reset ⟨[true, false], 1, 2⟩).bit_array[j]? = some false) ∧
    (BloomFilter.reset ⟨[true, false], 1, 2⟩).test (fun _ => 0) "y" = some false :=
  reset_completeness (fun _ => 0) (BloomFilter.new 2 1) ⟨[true, false], 1, 2⟩ ["x"] "y"
    (by decide) (by decide) (by decide) (by decide)

/-- C6: degenerate `num_hashes = 0`.  With zero hash functions, `test`
checks no positions and returns `true` for every element, on both
variants, in every state. -/
theorem degenerate_k_zero (dg : List Nat → Nat) (bf : BloomFilter)
    (abf : AtomicBloomFilter) (e : String) (hk : bf.num_hashes = 0)
    (hak : abf.num_hashes = 0) :
    bf.test dg e = some true ∧ abf.test dg e = some true := by
  constructor
  · rw [BloomFilter.test, hk]
    simp [List.range_zero, BloomFilter.testGo]
  · rw [AtomicBloomFilter.test, hak]
    simp [List.range_zero, AtomicBloomFilter.testGo]

theorem degenerate_k_zero_witness :
    (BloomFilter.new 5 0).test (fun _ => 0) "anything" = some true ∧
    (AtomicBloomFilter.new 5 0).test (fun _ => 0) "anything" = some true :=
  degenerate_k_zero (fun _ => 0) (BloomFilter.new 5 0) (AtomicBloomFilter.new 5 0)
    "anything" rfl rfl

/-- C7: single-bit saturation.  On `new(1, 1)`, every hash position reduces
modulo 1 to index 0, so after `set "x"` the single bit is set and `test`
returns `true` for every element. -/
theorem single_bit_saturation (dg : List Nat → Nat) (y : String) :
    ∃ bf1, (BloomFilter.new 1 1).set dg "x" = some bf1 ∧ bf1.test dg y = some true := by
  refine ⟨⟨writeAll [false] ((List.range 1).map (hashIdx dg 1 "x")), 1, 1⟩,
    set_eq dg (BloomFilter.new 1 1) "x" (by decide) rfl, ?_⟩
  rw [test_eq dg _ y Nat.one_pos (by rw [length_writeAll]; rfl)]
  refine congrArg some ?_
  have hbit : (writeAll [false] [hashIdx dg 1 "x" 0])[(0 : Nat)]? = some true :=
    getElem?_writeAll_of_mem (List.mem_singleton.mpr (Nat.mod_one _).symm) (by decide)
  have hzy : hashIdx dg 1 y 0 = 0 := Nat.mod_one _
  rw [show List.range 1 = [0] from rfl]
  simp [hzy, hbit]

/-- C8: variant equivalence.  The two store variants compute identical hash
positions in every state, behave identically from identical configurations,
and any sequential sequence of `set`/`test` operations returns identical
results from every `test` call. -/
theorem variant_equivalence (dg : List Nat → Nat) (size num_hashes : Nat)
    (abf : AtomicBloomFilter) (item : String) (i : Nat) (ops : List Op) :
    abf.hash dg item i = abf.toBF.hash dg item i ∧
    (AtomicBloomFilter.new size num_hashes).hash dg item i
      = (BloomFilter.new size num_hashes).hash dg item i ∧
    AtomicBloomFilter.run dg ops (AtomicBloomFilter.new size num_hashes)
      = BloomFilter.run dg ops (BloomFilter.new size num_hashes) :=
  ⟨atomic_hash_toBF dg abf item i, rfl,
    atomic_run_toBF dg ops (AtomicBloomFilter.new size num_hashes)⟩

/-- C9: commutativity of insertions.  For any filter with positive size
(and the structural invariant), `set a` then `set b` produces exactly the
same state as `set b` then `set a`. -/
theorem set_commutes (dg : List Nat → Nat) (bf : BloomFilter) (a b : String)
    (hsz : 0 < bf.size) (hlen : bf.bit_array.length = bf.size) :
    (bf.set dg a).bind (fun x => x.set dg b) = (bf.set dg b).bind (fun x => x.set dg a) := by
  rw [set_eq dg bf a hsz hlen, set_eq dg bf b hsz hlen, Option.some_bind, Option.some_bind]
  rw [set_eq dg { bf with bit_array := writeAll bf.bit_array ((List.range bf.num_hashes).map (hashIdx dg bf.size a)) } b hsz (by rw [length_writeAll]; exact hlen),
    set_eq dg { bf with bit_array := writeAll bf.bit_array ((List.range bf.num_hashes).map (hashIdx dg bf.size b)) } a hsz (by rw [length_writeAll]; exact hlen)]
  refine congrArg some ?_
  congr 1
  exact writeAll_comm bf.bit_array ((List.range bf.num_hashes).map (hashIdx dg bf.size a))
    ((List.range bf.num_hashes).map (hashIdx dg bf.size b))

theorem set_commutes_witness :
    ((BloomFilter.new 3 2).set demoDigest "a").bind (fun x => x.set demoDigest "b")
      = ((BloomFilter.new 3 2).set demoDigest "b").bind (fun x => x.set demoDigest "a") :=
  set_commutes demoDigest (BloomFilter.new 3 2) "a" "b" (by decide) (by decide)

/-- C10: `set_hash_fn` is a no-op.  It leaves the filter (bit array, size,
`num_hashes`) unchanged, never invokes the supplied closures, and every
subsequent `set`/`test` behaves as if it had never been called. -/
theorem set_hash_fn_noop (bf : BloomFilter) (fns : List (List Nat → Nat))
    (dg : List Nat → Nat) (item : String) :
    bf.set_hash_fn fns = bf ∧
    (bf.set_hash_fn fns).bit_array = bf.bit_array ∧
    (bf.set_hash_fn fns).size = bf.size ∧
    (bf.set_hash_fn fns).num_hashes = bf.num_hashes ∧
    (bf.set_hash_fn fns).set dg item = bf.set dg item ∧
    (bf.set_hash_fn fns).test dg item = bf.test dg item :=
  ⟨rfl, rfl, rfl, rfl, rfl, rfl⟩

end Bloom
